import Mathlib

/-!
Verification development for the `fmutils` field-mask library
(`fmutils.go`): building prefix-tree masks from dot-delimited paths and
applying them to protobuf-like messages with `Filter` (keep listed
fields) and `Prune` (clear listed fields), in an exact-match and a
wildcard-capable variant.

The Go code is shallowly embedded as follows.

* `type NestedMask map[string]NestedMask` becomes the trie `NestedMask`
  below.  Go's `map[string]` is an unordered finite map with unique
  keys; we represent it as an association list (`List (String ×
  NestedMask)`), so Go map equality corresponds to extensional equality
  of lookups, not to list equality.  `maskLookup` models `m[key]`,
  `setChild` models `m[key] = v` for an existing key, and appending
  models `m[key] = v` for a fresh key.
* A protobuf message is its list of currently-present fields
  (`protoreflect.Message.Range` enumerates exactly those), each a name
  together with a value.  A value (`PVal`) is a scalar (payload left
  opaque as a `Nat`), a singular embedded message, a repeated field
  (list), or a map whose entries pair the stringified key
  (`MapKey.String()`) with a value.  `rft.Clear(fd)` makes a field
  absent, i.e. removes it from the list; `xmap.Clear(mk)` removes a map
  entry.  Values stored in maps and lists are mutated in place by the
  Go code (`mv.Interface().(protoreflect.Message)` is a view of the
  stored message), which the embedding renders by rebuilding the entry
  with the recursively transformed value.
-/

/-- Embedding of `type NestedMask map[string]NestedMask` (fmutils.go line 25):
a recursive string-keyed map, i.e. a trie.  The Go map is unordered, so the
association list order is representation only. -/
inductive NestedMask where
  | node (children : List (String × NestedMask)) : NestedMask

/-- The children of a mask node, as an association list. -/
def NestedMask.children : NestedMask → List (String × NestedMask)
  | .node cs => cs

/-- Embedding of `type WildcardNestedMask map[string]WildcardNestedMask`
(fmutils.go line 173).  The Go type is structurally identical to
`NestedMask`; only the traversal functions differ, so we reuse the trie. -/
abbrev WildcardNestedMask := NestedMask

/-- Go map indexing `m[key]`: first (only, since Go keys are unique) binding
for `key` in the association list. -/
def maskLookup : List (String × NestedMask) → String → Option NestedMask
  | [], _ => none
  | (k, c) :: rest, key => if k = key then some c else maskLookup rest key

/-- Go map update `m[key] = v` when `key` is already bound: replace the
binding in place. -/
def setChild : List (String × NestedMask) → String → NestedMask → List (String × NestedMask)
  | [], _, _ => []
  | (k, c) :: rest, key, v => if k = key then (k, v) :: rest else (k, c) :: setChild rest key v

/-- The rune loop of `NestedMaskFromPaths` (fmutils.go lines 32-50)
accumulates `letters` and flushes a segment at each delimiter `.`,
skipping empty runs, with a final flush after the loop (lines 51-56).
`segsAux cs acc` returns the segments of `acc ++ cs` produced that way. -/
def segsAux : List Char → List Char → List String
  | [], acc => if acc.isEmpty then [] else [String.mk acc]
  | c :: cs, acc =>
    if c = '.' then
      if acc.isEmpty then segsAux cs [] else String.mk acc :: segsAux cs []
    else
      segsAux cs (acc ++ [c])

/-- The sequence of non-empty `.`-separated segments of a path, exactly as
the Go rune loop produces them. -/
def pathSegments (path : String) : List String :=
  segsAux path.data []

/-- One iteration of the outer loop of `NestedMaskFromPaths` (fmutils.go
lines 30-57), with the segment parsing factored out: walk/extend the trie
along the segments.  A non-final segment ensures a child exists and
descends (lines 40-45); the final segment only ensures a child exists
(lines 51-56), never replacing an existing subtree. -/
def insertSegs : NestedMask → List String → NestedMask
  | m, [] => m
  | m, [k] =>
    match maskLookup m.children k with
    | some _ => m
    | none => .node (m.children ++ [(k, .node [])])
  | m, k :: k2 :: rest =>
    match maskLookup m.children k with
    | some c => .node (setChild m.children k (insertSegs c (k2 :: rest)))
    | none => .node (m.children ++ [(k, insertSegs (.node []) (k2 :: rest))])

/-- Embedding of `NestedMaskFromPaths` (fmutils.go lines 28-60). -/
def NestedMaskFromPaths (paths : List String) : NestedMask :=
  paths.foldl (fun mask path => insertSegs mask (pathSegments path)) (.node [])

/-- Embedding of `WildcardNestedMaskFromPaths` (fmutils.go lines 176-208).
The Go function is a verbatim duplicate of `NestedMaskFromPaths` for the
second map type, so the embedding shares the definition. -/
def WildcardNestedMaskFromPaths (paths : List String) : WildcardNestedMask :=
  NestedMaskFromPaths paths

/-- Whether the trie has a node at the (possibly empty) key path `ks`:
the observable shape of a mask, used to compare masks extensionally
(Go map equality ignores representation order). -/
def maskHas : NestedMask → List String → Bool
  | _, [] => true
  | m, k :: ks =>
    match maskLookup m.children k with
    | some c => maskHas c ks
    | none => false

/-- Decides whether `ks` is an initial segment of `segs` (a small local
definition, avoiding any library ordering on lists). -/
def isPre : List String → List String → Bool
  | [], _ => true
  | _ :: _, [] => false
  | a :: as, b :: bs => a = b && isPre as bs

/-- A protobuf value as seen by the traversal engines: a scalar (payload
abstracted to a `Nat`), a singular embedded message (its present fields),
a repeated field, or a map from stringified keys to values.  Repeated
fields are only ever recursed into elementwise via `.Message()` in the Go
code, so list elements are expected to be `msg` values; map values may be
scalars (e.g. `map<string,string>`) or messages, distinguished in Go by
the `mv.Interface().(protoreflect.Message)` type assertion. -/
inductive PVal where
  | scalar (n : Nat) : PVal
  | msg (fields : List (String × PVal)) : PVal
  | list (elems : List PVal) : PVal
  | pmap (entries : List (String × PVal)) : PVal

/-- A message: its currently-present fields, in enumeration order of
`protoreflect.Message.Range`. -/
abbrev PMsg := List (String × PVal)

/-- Is the value a scalar (not a message, list or map)? -/
def PVal.isScalarV : PVal → Bool
  | .scalar _ => true
  | _ => false

mutual

/-- Embedding of `NestedMask.Filter` (fmutils.go lines 67-106): empty mask
keeps everything (lines 68-70), otherwise each present field is processed
by the `Range` callback. -/
def NestedMask.Filter (mask : NestedMask) (msg : PMsg) : PMsg :=
  if mask.children.isEmpty then msg
  else NestedMask.filterFields mask msg
termination_by 2 * sizeOf msg + 1

/-- The `rft.Range` callback of `NestedMask.Filter` (fmutils.go lines
73-105) applied to each present field in order: a field whose name is not
in the mask is cleared (line 102); a leaf mask keeps the field with no
recursion (lines 76-78); otherwise the map/list/message branches recurse
(lines 80-100), and a scalar field falls through untouched. -/
def NestedMask.filterFields (mask : NestedMask) (fields : PMsg) : PMsg :=
  match fields with
  | [] => []
  | (name, v) :: rest =>
    match maskLookup mask.children name with
    | some m =>
      if m.children.isEmpty then (name, v) :: NestedMask.filterFields mask rest
      else (name, NestedMask.filterValue m v) :: NestedMask.filterFields mask rest
    | none => NestedMask.filterFields mask rest
termination_by 2 * sizeOf fields

/-- The per-kind dispatch of `NestedMask.Filter` for a field matched by a
non-leaf subtree `m` (fmutils.go lines 80-100): `fd.IsMap()`,
`fd.IsList()`, `fd.Kind() == MessageKind`, else nothing. -/
def NestedMask.filterValue (m : NestedMask) (v : PVal) : PVal :=
  match v with
  | .pmap entries => .pmap (NestedMask.filterEntries m entries)
  | .list elems => .list (NestedMask.filterList m elems)
  | .msg f => .msg (NestedMask.Filter m f)
  | .scalar n => .scalar n
termination_by 2 * sizeOf v

/-- The `xmap.Range` callback of `NestedMask.Filter` (fmutils.go lines
82-92): an entry whose stringified key is in the subtree is kept, recursing
into it when it is a message and its mask is non-leaf (lines 83-85); an
unmatched entry is cleared (line 88). -/
def NestedMask.filterEntries (m : NestedMask) (entries : List (String × PVal)) :
    List (String × PVal) :=
  match entries with
  | [] => []
  | (k, mv) :: rest =>
    match maskLookup m.children k with
    | some mi =>
      (k, match mv with
          | PVal.msg f => if mi.children.isEmpty then PVal.msg f else PVal.msg (NestedMask.Filter mi f)
          | x => x) :: NestedMask.filterEntries m rest
    | none => NestedMask.filterEntries m rest
termination_by 2 * sizeOf entries

/-- The list loop of `NestedMask.Filter` (fmutils.go lines 94-97):
`m.Filter` on every element's message.  (The Go code asserts each element
is a message via `.Message()`; a non-message element is left unchanged
here, that Go call being a reflection fault outside the model.) -/
def NestedMask.filterList (m : NestedMask) (elems : List PVal) : List PVal :=
  match elems with
  | [] => []
  | e :: rest =>
    (match e with
     | PVal.msg f => PVal.msg (NestedMask.Filter m f)
     | x => x) :: NestedMask.filterList m rest
termination_by 2 * sizeOf elems

/-- Embedding of `NestedMask.Prune` (fmutils.go lines 114-152): empty mask
clears nothing (lines 115-117). -/
def NestedMask.Prune (mask : NestedMask) (msg : PMsg) : PMsg :=
  if mask.children.isEmpty then msg
  else NestedMask.pruneFields mask msg
termination_by 2 * sizeOf msg + 1

/-- The `rft.Range` callback of `NestedMask.Prune` (fmutils.go lines
120-151): a field not in the mask is left untouched; a leaf mask clears
the field entirely (lines 123-126); otherwise the map/list/message
branches recurse (lines 128-148). -/
def NestedMask.pruneFields (mask : NestedMask) (fields : PMsg) : PMsg :=
  match fields with
  | [] => []
  | (name, v) :: rest =>
    match maskLookup mask.children name with
    | some m =>
      if m.children.isEmpty then NestedMask.pruneFields mask rest
      else (name, NestedMask.pruneValue m v) :: NestedMask.pruneFields mask rest
    | none => (name, v) :: NestedMask.pruneFields mask rest
termination_by 2 * sizeOf fields

/-- The per-kind dispatch of `NestedMask.Prune` for a field matched by a
non-leaf subtree `m` (fmutils.go lines 128-148). -/
def NestedMask.pruneValue (m : NestedMask) (v : PVal) : PVal :=
  match v with
  | .pmap entries => .pmap (NestedMask.pruneEntries m entries)
  | .list elems => .list (NestedMask.pruneList m elems)
  | .msg f => .msg (NestedMask.Prune m f)
  | .scalar n => .scalar n
termination_by 2 * sizeOf v

/-- The `xmap.Range` callback of `NestedMask.Prune` (fmutils.go lines
130-140): a matched entry is recursed into when it is a message with a
non-leaf mask (lines 132-133) and cleared otherwise (line 135); an
unmatched entry is left untouched. -/
def NestedMask.pruneEntries (m : NestedMask) (entries : List (String × PVal)) :
    List (String × PVal) :=
  match entries with
  | [] => []
  | (k, mv) :: rest =>
    match maskLookup m.children k with
    | some mi =>
      match mv with
      | PVal.msg f =>
        if mi.children.isEmpty then NestedMask.pruneEntries m rest
        else (k, PVal.msg (NestedMask.Prune mi f)) :: NestedMask.pruneEntries m rest
      | _ => NestedMask.pruneEntries m rest
    | none => (k, mv) :: NestedMask.pruneEntries m rest
termination_by 2 * sizeOf entries

/-- The list loop of `NestedMask.Prune` (fmutils.go lines 142-145):
`m.Prune` on every element's message. -/
def NestedMask.pruneList (m : NestedMask) (elems : List PVal) : List PVal :=
  match elems with
  | [] => []
  | e :: rest =>
    (match e with
     | PVal.msg f => PVal.msg (NestedMask.Prune m f)
     | x => x) :: NestedMask.pruneList m rest
termination_by 2 * sizeOf elems

end

/-- The key consulted by the wildcard engine (fmutils.go lines 215-220 and
266-271): the reserved `*` when `wildcard` is set, the exact name/stringified
key otherwise. -/
def wildcardKey (wildcard : Bool) (name : String) : String :=
  if wildcard then "*" else name

mutual

/-- Embedding of `WildcardNestedMask.Filter` (fmutils.go lines 289-305):
empty mask keeps everything; otherwise each present field goes through the
`Range` callback, which clears the field and stops the iteration only when
both `filterField` calls return `false` (lines 296-303). -/
def WildcardNestedMask.Filter (mask : WildcardNestedMask) (msg : PMsg) : PMsg :=
  if mask.children.isEmpty then msg
  else WildcardNestedMask.filterRange mask msg
termination_by 2 * sizeOf msg + 1

/-- The `rft.Range` callback of `WildcardNestedMask.Filter` (fmutils.go
lines 295-304), over the remaining fields: `filterField` is consulted with
the exact name first, then with the wildcard key; if either returns `true`
the (possibly mutated) field is kept; otherwise the field is cleared and
the callback returns `false`, which stops `Range`, leaving the remaining
fields untouched.  (The Go code passes the same `protoreflect.Value` to
both calls; `filterField` only mutates the value in branches that return
`true`, so in the second call the value is still `v`.) -/
def WildcardNestedMask.filterRange (mask : WildcardNestedMask) (fields : PMsg) : PMsg :=
  match fields with
  | [] => []
  | (name, v) :: rest =>
    if (WildcardNestedMask.filterField mask name v false false).1 then
      (name, (WildcardNestedMask.filterField mask name v false false).2) ::
        WildcardNestedMask.filterRange mask rest
    else if (WildcardNestedMask.filterField mask name v true false).1 then
      (name, (WildcardNestedMask.filterField mask name v true false).2) ::
        WildcardNestedMask.filterRange mask rest
    else rest
termination_by 2 * sizeOf fields

/-- Embedding of `WildcardNestedMask.Prune` (fmutils.go lines 314-331):
empty mask clears nothing; otherwise each present field goes through the
`Range` callback, which clears the field whenever a `filterField` call
returns `true`, and otherwise keeps it and stops the iteration
(lines 320-330). -/
def WildcardNestedMask.Prune (mask : WildcardNestedMask) (msg : PMsg) : PMsg :=
  if mask.children.isEmpty then msg
  else WildcardNestedMask.pruneRange mask msg

/-- The `rft.Range` callback of `WildcardNestedMask.Prune` (fmutils.go
lines 320-330), over the remaining fields: if `filterField` (exact, then
wildcard) returns `true` the field is cleared with `rft.Clear(fd)`
(discarding any in-place mutation `filterField` made); if both return
`false` the field is kept and the callback returns `false`, stopping
`Range` and leaving the remaining fields untouched. -/
def WildcardNestedMask.pruneRange (mask : WildcardNestedMask) (fields : PMsg) : PMsg :=
  match fields with
  | [] => []
  | (name, v) :: rest =>
    if (WildcardNestedMask.filterField mask name v false true).1 then
      WildcardNestedMask.pruneRange mask rest
    else if (WildcardNestedMask.filterField mask name v true true).1 then
      WildcardNestedMask.pruneRange mask rest
    else (name, (WildcardNestedMask.filterField mask name v true true).2) :: rest
termination_by 2 * sizeOf fields

/-- Embedding of `WildcardNestedMask.filterField` (fmutils.go lines
210-258): look the field up under its exact name or under `*` (lines
215-220); on a hit with a leaf subtree return `true` with the field
untouched (lines 224-226); with a non-leaf subtree dispatch on the field
kind (lines 228-255) — note that the map branch passes the receiver
`mask`, not the subtree `m`, to `filterMapKey` (lines 231, 237), and the
list and message branches call `m.Filter` regardless of `pruning` (lines
251, 254).  Every path falls through to `return true` (line 257), also
when the lookup missed. -/
def WildcardNestedMask.filterField (mask : WildcardNestedMask) (name : String) (v : PVal)
    (wildcard pruning : Bool) : Bool × PVal :=
  match maskLookup mask.children (wildcardKey wildcard name) with
  | some m =>
    if m.children.isEmpty then (true, v)
    else
      match v with
      | PVal.pmap entries =>
        (true, PVal.pmap (WildcardNestedMask.rangeMapEntries mask pruning entries))
      | PVal.list elems => (true, PVal.list (WildcardNestedMask.filterListElems m elems))
      | PVal.msg f => (true, PVal.msg (WildcardNestedMask.Filter m f))
      | PVal.scalar n => (true, PVal.scalar n)
  | none => (true, v)
termination_by 2 * sizeOf v

/-- The `xmap.Range` callback of `WildcardNestedMask.filterField`
(fmutils.go lines 230-247), over the remaining entries: `filterMapKey` is
consulted with the exact stringified key first, then the wildcard key; if
either returns `true` the entry is cleared when pruning and kept otherwise;
if both return `false` the entry is cleared when filtering, kept when
pruning, and the callback returns `false`, stopping the map `Range`.
(As in `filterRange`, `filterMapKey` mutates the stored value only in
branches returning `true`, so the second call still receives `mv`.) -/
def WildcardNestedMask.rangeMapEntries (mask : WildcardNestedMask) (pruning : Bool)
    (entries : List (String × PVal)) : List (String × PVal) :=
  match entries with
  | [] => []
  | (k, mv) :: rest =>
    if (WildcardNestedMask.filterMapKey mask k mv false).1 then
      if pruning then WildcardNestedMask.rangeMapEntries mask pruning rest
      else (k, (WildcardNestedMask.filterMapKey mask k mv false).2) ::
        WildcardNestedMask.rangeMapEntries mask pruning rest
    else if (WildcardNestedMask.filterMapKey mask k mv true).1 then
      if pruning then WildcardNestedMask.rangeMapEntries mask pruning rest
      else (k, (WildcardNestedMask.filterMapKey mask k mv true).2) ::
        WildcardNestedMask.rangeMapEntries mask pruning rest
    else
      if pruning then (k, (WildcardNestedMask.filterMapKey mask k mv true).2) :: rest
      else rest
termination_by 2 * sizeOf entries

/-- Embedding of `WildcardNestedMask.filterMapKey` (fmutils.go lines
260-281): look the entry key (or `*`) up in the receiver mask; on a hit
where the value is a message and the subtree is non-leaf, `m.Filter` it in
place (lines 273-278); always `return true` (line 280). -/
def WildcardNestedMask.filterMapKey (mask : WildcardNestedMask) (k : String) (mv : PVal)
    (wildcard : Bool) : Bool × PVal :=
  match maskLookup mask.children (wildcardKey wildcard k) with
  | some m =>
    match mv with
    | PVal.msg f =>
      if m.children.isEmpty then (true, PVal.msg f)
      else (true, PVal.msg (WildcardNestedMask.Filter m f))
    | x => (true, x)
  | none => (true, mv)
termination_by 2 * sizeOf mv

/-- The list loop of `WildcardNestedMask.filterField` (fmutils.go lines
249-252): `m.Filter` on every element's message. -/
def WildcardNestedMask.filterListElems (m : WildcardNestedMask) (elems : List PVal) :
    List PVal :=
  match elems with
  | [] => []
  | e :: rest =>
    (match e with
     | PVal.msg f => PVal.msg (WildcardNestedMask.Filter m f)
     | x => x) :: WildcardNestedMask.filterListElems m rest
termination_by 2 * sizeOf elems

end

/-! ### Association-list lemmas for the mask builder -/

theorem maskLookup_append_of_some {cs : List (String × NestedMask)} {k : String}
    {c : NestedMask} (ds : List (String × NestedMask)) (h : maskLookup cs k = some c) :
    maskLookup (cs ++ ds) k = some c := by
  induction cs with
  | nil => simp [maskLookup] at h
  | cons hd tl ih =>
    obtain ⟨k0, c0⟩ := hd
    simp only [maskLookup, List.cons_append] at h ⊢
    by_cases hk : k0 = k
    · simpa [hk] using h
    · simp only [if_neg hk] at h ⊢
      exact ih h

theorem maskLookup_append_of_none {cs : List (String × NestedMask)} {k : String}
    (ds : List (String × NestedMask)) (h : maskLookup cs k = none) :
    maskLookup (cs ++ ds) k = maskLookup ds k := by
  induction cs with
  | nil => simp [maskLookup]
  | cons hd tl ih =>
    obtain ⟨k0, c0⟩ := hd
    simp only [maskLookup, List.cons_append] at h ⊢
    by_cases hk : k0 = k
    · simp [hk] at h
    · simp only [if_neg hk] at h ⊢
      exact ih h

theorem maskLookup_setChild_self {cs : List (String × NestedMask)} {k : String}
    {c : NestedMask} (x : NestedMask) (h : maskLookup cs k = some c) :
    maskLookup (setChild cs k x) k = some x := by
  induction cs with
  | nil => simp [maskLookup] at h
  | cons hd tl ih =>
    obtain ⟨k0, c0⟩ := hd
    simp only [maskLookup, setChild] at h ⊢
    by_cases hk : k0 = k
    · simp [hk, maskLookup]
    · simp only [if_neg hk, maskLookup] at h ⊢
      exact ih h

theorem maskLookup_setChild_of_ne {cs : List (String × NestedMask)} {k q : String}
    (x : NestedMask) (h : q ≠ k) :
    maskLookup (setChild cs k x) q = maskLookup cs q := by
  induction cs with
  | nil => simp [setChild]
  | cons hd tl ih =>
    obtain ⟨k0, c0⟩ := hd
    simp only [maskLookup, setChild]
    by_cases h0 : k0 = k
    · subst h0
      simp [maskLookup, Ne.symm h]
    · simp only [if_neg h0, maskLookup]
      by_cases h1 : k0 = q
      · simp [h1]
      · simp only [if_neg h1]
        exact ih

theorem maskHas_nil (m : NestedMask) : maskHas m [] = true := by
  simp [maskHas]

theorem maskHas_empty_node (ks : List String) : maskHas (.node []) ks = ks.isEmpty := by
  cases ks with
  | nil => simp [maskHas]
  | cons k ks => simp [maskHas, maskLookup, NestedMask.children]

@[simp] theorem NestedMask.children_node (cs : List (String × NestedMask)) :
    (NestedMask.node cs).children = cs := rfl

theorem maskHas_cons_eq (m : NestedMask) (q : String) (ks : List String) :
    maskHas m (q :: ks)
      = match maskLookup m.children q with
        | some c => maskHas c ks
        | none => false := by
  simp [maskHas]

/-- Inserting the segments of one path creates exactly the nodes at the
non-empty initial segments of `segs`, leaving every other node untouched:
the trie after insertion has a node at `ks` iff the old trie had one or
`ks` is a non-empty initial segment of `segs`. -/
theorem maskHas_insertSegs (segs : List String) (m : NestedMask) (ks : List String) :
    maskHas (insertSegs m segs) ks = (maskHas m ks || (!ks.isEmpty && isPre ks segs)) := by
  induction segs generalizing m ks with
  | nil =>
    cases ks with
    | nil => simp [insertSegs, maskHas]
    | cons q ks2 => simp [insertSegs, isPre]
  | cons k segs2 ih =>
    cases segs2 with
    | nil =>
      cases hl : maskLookup m.children k with
      | some c =>
        have hins : insertSegs m [k] = m := by simp [insertSegs, hl]
        rw [hins]
        cases ks with
        | nil => simp [maskHas]
        | cons q ks2 =>
          by_cases hqk : q = k
          · subst hqk
            cases ks2 with
            | nil => simp [maskHas_cons_eq, hl, isPre, maskHas]
            | cons r ks3 => simp [isPre]
          · simp [isPre, hqk]
      | none =>
        have hins : insertSegs m [k] = .node (m.children ++ [(k, .node [])]) := by
          simp [insertSegs, hl]
        rw [hins]
        cases ks with
        | nil => simp [maskHas]
        | cons q ks2 =>
          rw [maskHas_cons_eq, maskHas_cons_eq, NestedMask.children_node]
          cases hq : maskLookup m.children q with
          | some c =>
            have hne : q ≠ k := by
              rintro rfl
              rw [hl] at hq
              exact absurd hq (by simp)
            rw [maskLookup_append_of_some [(k, NestedMask.node [])] hq]
            simp [isPre, hne]
          | none =>
            rw [maskLookup_append_of_none [(k, NestedMask.node [])] hq]
            by_cases hqk : q = k
            · subst hqk
              simp only [maskLookup, if_pos rfl]
              cases ks2 with
              | nil => simp [maskHas, isPre]
              | cons r ks3 => simp [maskHas_cons_eq, maskLookup, isPre]
            · simp [maskLookup, hqk, Ne.symm hqk, isPre]
    | cons k2 rest =>
      cases hl : maskLookup m.children k with
      | some c =>
        have hins : insertSegs m (k :: k2 :: rest)
            = .node (setChild m.children k (insertSegs c (k2 :: rest))) := by
          simp [insertSegs, hl]
        rw [hins]
        cases ks with
        | nil => simp [maskHas]
        | cons q ks2 =>
          rw [maskHas_cons_eq, maskHas_cons_eq, NestedMask.children_node]
          by_cases hqk : q = k
          · subst hqk
            rw [maskLookup_setChild_self _ hl, hl]
            simp only [ih]
            cases ks2 with
            | nil => simp [maskHas, isPre]
            | cons r ks3 => simp [isPre]
          · rw [maskLookup_setChild_of_ne _ hqk]
            cases maskLookup m.children q <;> simp [isPre, hqk]
      | none =>
        have hins : insertSegs m (k :: k2 :: rest)
            = .node (m.children ++ [(k, insertSegs (.node []) (k2 :: rest))]) := by
          simp [insertSegs, hl]
        rw [hins]
        cases ks with
        | nil => simp [maskHas]
        | cons q ks2 =>
          rw [maskHas_cons_eq, maskHas_cons_eq, NestedMask.children_node]
          cases hq : maskLookup m.children q with
          | some c2 =>
            have hne : q ≠ k := by
              rintro rfl
              rw [hl] at hq
              exact absurd hq (by simp)
            rw [maskLookup_append_of_some
              [(k, insertSegs (NestedMask.node []) (k2 :: rest))] hq]
            simp [isPre, hne]
          | none =>
            rw [maskLookup_append_of_none
              [(k, insertSegs (NestedMask.node []) (k2 :: rest))] hq]
            by_cases hqk : q = k
            · subst hqk
              simp only [maskLookup, if_pos rfl]
              cases ks2 with
              | nil => simp [ih, maskHas, isPre]
              | cons r ks3 => simp [ih, maskHas_empty_node, isPre]
            · simp [maskLookup, hqk, Ne.symm hqk, isPre]

/-- The mask built from a path list has a node at `ks` iff `ks` is empty
(the root) or `ks` is a non-empty initial segment of the segment list of
some path: a purely set-like characterisation, independent of path order. -/
theorem maskHas_foldl (P : List String) (m : NestedMask) (ks : List String) :
    maskHas (P.foldl (fun mask path => insertSegs mask (pathSegments path)) m) ks
      = (maskHas m ks || P.any fun p => !ks.isEmpty && isPre ks (pathSegments p)) := by
  induction P generalizing m with
  | nil => simp
  | cons p P2 ih =>
    rw [List.foldl_cons, ih, maskHas_insertSegs, List.any_cons]
    cases maskHas m ks <;> simp [Bool.or_assoc]

theorem maskHas_NestedMaskFromPaths (P : List String) (ks : List String) :
    maskHas (NestedMaskFromPaths P) ks
      = (ks.isEmpty || P.any fun p => !ks.isEmpty && isPre ks (pathSegments p)) := by
  rw [NestedMaskFromPaths, maskHas_foldl, maskHas_empty_node]

theorem any_eq_of_perm {P Q : List String} (h : P.Perm Q) (f : String → Bool) :
    P.any f = Q.any f := by
  cases hP : P.any f with
  | true =>
    obtain ⟨x, hx, hfx⟩ := List.any_eq_true.mp hP
    exact (List.any_eq_true.mpr ⟨x, h.mem_iff.mp hx, hfx⟩).symm
  | false =>
    cases hQ : Q.any f with
    | true =>
      obtain ⟨x, hx, hfx⟩ := List.any_eq_true.mp hQ
      rw [List.any_eq_true.mpr ⟨x, h.mem_iff.mpr hx, hfx⟩] at hP
      exact hP.symm
    | false => rfl

/-- C8: mask construction is a set-union over tries: any permutation of the
path list produces the identical tree (compared extensionally, as Go
compares its unordered maps), for the exact and the wildcard builders; and
a shorter path never downgrades a populated subtree to a leaf: when both
`a` and `a.b` occur, the node for `a` keeps the child `b`. -/
theorem c8_mask_construction_order_independent (P Q : List String) (h : P.Perm Q) :
    (∀ ks, maskHas (NestedMaskFromPaths P) ks = maskHas (NestedMaskFromPaths Q) ks)
    ∧ (∀ ks, maskHas (WildcardNestedMaskFromPaths P) ks
        = maskHas (WildcardNestedMaskFromPaths Q) ks)
    ∧ ("a" ∈ P → "a.b" ∈ P → maskHas (NestedMaskFromPaths P) ["a", "b"] = true) := by
  have main : ∀ ks, maskHas (NestedMaskFromPaths P) ks = maskHas (NestedMaskFromPaths Q) ks := by
    intro ks
    rw [maskHas_NestedMaskFromPaths, maskHas_NestedMaskFromPaths, any_eq_of_perm h]
  refine ⟨main, ?_, ?_⟩
  · intro ks
    rw [WildcardNestedMaskFromPaths, WildcardNestedMaskFromPaths]
    exact main ks
  · intro _ hab
    rw [maskHas_NestedMaskFromPaths]
    have hany : (P.any fun p => !(["a", "b"] : List String).isEmpty
        && isPre ["a", "b"] (pathSegments p)) = true := by
      rw [List.any_eq_true]
      exact ⟨"a.b", hab, by decide⟩
    rw [hany, Bool.or_true]

/-- Witness for C8 at a concrete input: `["a.b", "a"]` is a permutation of
`["a", "a.b"]` and both membership hypotheses hold, so the node for `a`
has the child `b`. -/
theorem c8_mask_construction_order_independent_witness :
    maskHas (NestedMaskFromPaths ["a.b", "a"]) ["a", "b"] = true := by
  have h := c8_mask_construction_order_independent ["a.b", "a"] ["a", "a.b"] (by decide)
  exact h.2.2 (by simp) (by simp)

/-- C7: an empty mask makes both `Filter` and `Prune` a no-op on every
message, in the exact and in the wildcard engine (fmutils.go lines 68-70,
115-117, 290-292, 315-317). -/
theorem c7_empty_mask_noop (msg : PMsg) :
    NestedMask.Filter (NestedMaskFromPaths []) msg = msg
    ∧ NestedMask.Prune (NestedMaskFromPaths []) msg = msg
    ∧ WildcardNestedMask.Filter (WildcardNestedMaskFromPaths []) msg = msg
    ∧ WildcardNestedMask.Prune (WildcardNestedMaskFromPaths []) msg = msg := by
  refine ⟨?_, ?_, ?_, ?_⟩ <;>
    simp [NestedMask.Filter, NestedMask.Prune, WildcardNestedMask.Filter,
      WildcardNestedMask.Prune, NestedMaskFromPaths, WildcardNestedMaskFromPaths]

/-- C1 (code bug): with the wildcard mask `{"user"}` the field `photo`
matches neither an exact key nor `*`, yet `WildcardNestedMask.Filter`
leaves the whole message unchanged instead of clearing `photo`:
`filterField` ends in an unconditional `return true` (fmutils.go line 257),
so the clearing branch of the `Range` callback (line 302) is unreachable.
The repository's own test `TestWildcardFilter` ("mask with single root
field keeps that field only") expects `photo` to be cleared. -/
theorem c1_wildcard_filter_keeps_unmatched_field :
    WildcardNestedMask.Filter (WildcardNestedMaskFromPaths ["user"])
      [("user", PVal.msg [("user_id", PVal.scalar 1), ("name", PVal.scalar 2)]),
       ("photo", PVal.msg [("photo_id", PVal.scalar 3)])]
      = [("user", PVal.msg [("user_id", PVal.scalar 1), ("name", PVal.scalar 2)]),
         ("photo", PVal.msg [("photo_id", PVal.scalar 3)])] := by
  simp [WildcardNestedMask.Filter, WildcardNestedMask.filterRange,
    WildcardNestedMask.filterField, WildcardNestedMaskFromPaths, NestedMaskFromPaths,
    insertSegs, pathSegments, segsAux, maskLookup, wildcardKey]

/-- C2 (code bug): with the wildcard mask `{"user"}` the field `photo`
matches neither an exact key nor `*`, yet `WildcardNestedMask.Prune`
clears it (indeed it clears every present field): `filterField` always
returns `true` (fmutils.go line 257), so the `Range` callback of `Prune`
always reaches `rft.Clear(fd)` (line 322), contradicting the function's
own documentation "All other fields are kept untouched" (line 310). -/
theorem c2_wildcard_prune_clears_unmatched_field :
    WildcardNestedMask.Prune (WildcardNestedMaskFromPaths ["user"])
      [("user", PVal.msg [("user_id", PVal.scalar 1), ("name", PVal.scalar 2)]),
       ("photo", PVal.msg [("photo_id", PVal.scalar 3)])]
      = [] := by
  simp [WildcardNestedMask.Prune, WildcardNestedMask.pruneRange,
    WildcardNestedMask.filterField, WildcardNestedMaskFromPaths, NestedMaskFromPaths,
    insertSegs, pathSegments, segsAux, maskLookup, wildcardKey]

/-- C3 (code bug): with the wildcard mask `{"user.name"}` the field `user`
matches a non-leaf subtree and is a singular message, so per the claim
`Prune` should recurse in prune mode and yield
`[("user", msg [("user_id", 1)])]`; instead the code recurses with
`m.Filter` (fmutils.go lines 251, 254) and then, because `filterField`
returns `true`, clears the whole `user` field (line 322), producing the
empty message. -/
theorem c3_wildcard_prune_clears_whole_matched_field :
    WildcardNestedMask.Prune (WildcardNestedMaskFromPaths ["user.name"])
      [("user", PVal.msg [("user_id", PVal.scalar 1), ("name", PVal.scalar 2)])]
      = [] := by
  simp [WildcardNestedMask.Prune, WildcardNestedMask.pruneRange,
    WildcardNestedMask.filterField, WildcardNestedMaskFromPaths, NestedMaskFromPaths,
    insertSegs, pathSegments, segsAux, maskLookup, wildcardKey]

/-- C4 (code bug): applying the wildcard `Filter` with mask
`{"attrs.*.tags.t1"}` to a map `attrs` with entries `a1, a2, a3` (each
holding tags `t1, t2, t3`) should trim each entry to `{tags: {t1}}`; the
code instead leaves the message completely unchanged: the map branch of
`filterField` resolves entry keys in the field-level mask rather than the
matched subtree (fmutils.go lines 231, 237, receiver `mask` instead of
`m`), and since `filterMapKey` always returns `true` (line 280) the
wildcard fallback and the clearing branch (lines 237-245) are
unreachable.  The repository's own test `TestWildcardFilter`
("mask with lots of wildcard values") expects the trimming behaviour. -/
theorem c4_wildcard_filter_map_entries_unchanged :
    WildcardNestedMask.Filter (WildcardNestedMaskFromPaths ["attrs.*.tags.t1"])
      [("attrs", PVal.pmap
        [("a1", PVal.msg [("tags", PVal.pmap
            [("t1", PVal.scalar 1), ("t2", PVal.scalar 2), ("t3", PVal.scalar 3)])]),
         ("a2", PVal.msg [("tags", PVal.pmap
            [("t1", PVal.scalar 1), ("t2", PVal.scalar 2), ("t3", PVal.scalar 3)])]),
         ("a3", PVal.msg [("tags", PVal.pmap
            [("t1", PVal.scalar 1), ("t2", PVal.scalar 2), ("t3", PVal.scalar 3)])])])]
      = [("attrs", PVal.pmap
        [("a1", PVal.msg [("tags", PVal.pmap
            [("t1", PVal.scalar 1), ("t2", PVal.scalar 2), ("t3", PVal.scalar 3)])]),
         ("a2", PVal.msg [("tags", PVal.pmap
            [("t1", PVal.scalar 1), ("t2", PVal.scalar 2), ("t3", PVal.scalar 3)])]),
         ("a3", PVal.msg [("tags", PVal.pmap
            [("t1", PVal.scalar 1), ("t2", PVal.scalar 2), ("t3", PVal.scalar 3)])])])] := by
  simp [WildcardNestedMask.Filter, WildcardNestedMask.filterRange,
    WildcardNestedMask.filterField, WildcardNestedMask.rangeMapEntries,
    WildcardNestedMask.filterMapKey, WildcardNestedMaskFromPaths, NestedMaskFromPaths,
    insertSegs, pathSegments, segsAux, maskLookup, wildcardKey]

/-! ### Exact traversal engine: per-field behaviour -/

theorem filter_eq_filterFields {mask : NestedMask} (h : mask.children ≠ []) (msg : PMsg) :
    NestedMask.Filter mask msg = NestedMask.filterFields mask msg := by
  rw [NestedMask.Filter, if_neg]
  simp [h]

theorem prune_eq_pruneFields {mask : NestedMask} (h : mask.children ≠ []) (msg : PMsg) :
    NestedMask.Prune mask msg = NestedMask.pruneFields mask msg := by
  rw [NestedMask.Prune, if_neg]
  simp [h]

/-- A field name with no mask entry never survives `filterFields`. -/
theorem not_mem_filterFields {mask : NestedMask} {name : String} (fields : PMsg) (v : PVal)
    (h : maskLookup mask.children name = none) :
    (name, v) ∉ NestedMask.filterFields mask fields := by
  induction fields with
  | nil => simp [NestedMask.filterFields]
  | cons hd rest ih =>
    obtain ⟨n0, v0⟩ := hd
    simp only [NestedMask.filterFields]
    cases hl : maskLookup mask.children n0 with
    | some m0 =>
      have hne : name ≠ n0 := by
        rintro rfl
        rw [h] at hl
        cases hl
      dsimp only
      split_ifs <;> simp [List.mem_cons, hne, ih]
    | none => exact ih

/-- A field whose mask entry is a leaf survives `filterFields` unchanged. -/
theorem mem_filterFields_of_leaf {mask m : NestedMask} {name : String} {v : PVal}
    {fields : PMsg} (hmem : (name, v) ∈ fields)
    (hm : maskLookup mask.children name = some m) (hleaf : m.children = []) :
    (name, v) ∈ NestedMask.filterFields mask fields := by
  induction fields with
  | nil => cases hmem
  | cons hd rest ih =>
    obtain ⟨n0, v0⟩ := hd
    rcases List.mem_cons.mp hmem with heq | hmem2
    · cases heq
      simp only [NestedMask.filterFields, hm]
      rw [if_pos (by simp [hleaf])]
      exact List.mem_cons_self _ _
    · simp only [NestedMask.filterFields]
      cases hl : maskLookup mask.children n0 with
      | some m0 =>
        dsimp only
        split_ifs <;> exact List.mem_cons_of_mem _ (ih hmem2)
      | none => exact ih hmem2

/-- A field whose mask entry is a non-leaf subtree survives `filterFields`
with its value sent through the per-kind dispatch. -/
theorem mem_filterFields_of_nonleaf {mask m : NestedMask} {name : String} {v : PVal}
    {fields : PMsg} (hmem : (name, v) ∈ fields)
    (hm : maskLookup mask.children name = some m) (hne : m.children ≠ []) :
    (name, NestedMask.filterValue m v) ∈ NestedMask.filterFields mask fields := by
  induction fields with
  | nil => cases hmem
  | cons hd rest ih =>
    obtain ⟨n0, v0⟩ := hd
    rcases List.mem_cons.mp hmem with heq | hmem2
    · cases heq
      simp only [NestedMask.filterFields, hm]
      rw [if_neg (by simp [hne])]
      exact List.mem_cons_self _ _
    · simp only [NestedMask.filterFields]
      cases hl : maskLookup mask.children n0 with
      | some m0 =>
        dsimp only
        split_ifs <;> exact List.mem_cons_of_mem _ (ih hmem2)
      | none => exact ih hmem2

/-- A field name with no mask entry survives `pruneFields` unchanged. -/
theorem mem_pruneFields_of_absent {mask : NestedMask} {name : String} {v : PVal}
    {fields : PMsg} (hmem : (name, v) ∈ fields)
    (h : maskLookup mask.children name = none) :
    (name, v) ∈ NestedMask.pruneFields mask fields := by
  induction fields with
  | nil => cases hmem
  | cons hd rest ih =>
    obtain ⟨n0, v0⟩ := hd
    rcases List.mem_cons.mp hmem with heq | hmem2
    · cases heq
      simp only [NestedMask.pruneFields, h]
      exact List.mem_cons_self _ _
    · simp only [NestedMask.pruneFields]
      cases hl : maskLookup mask.children n0 with
      | some m0 =>
        dsimp only
        split_ifs with he
        · exact ih hmem2
        · exact List.mem_cons_of_mem _ (ih hmem2)
      | none => exact List.mem_cons_of_mem _ (ih hmem2)

/-- A field whose mask entry is a leaf never survives `pruneFields`. -/
theorem not_mem_pruneFields_of_leaf {mask m : NestedMask} {name : String} (fields : PMsg)
    (v : PVal) (hm : maskLookup mask.children name = some m) (hleaf : m.children = []) :
    (name, v) ∉ NestedMask.pruneFields mask fields := by
  induction fields with
  | nil => simp [NestedMask.pruneFields]
  | cons hd rest ih =>
    obtain ⟨n0, v0⟩ := hd
    simp only [NestedMask.pruneFields]
    cases hl : maskLookup mask.children n0 with
    | some m0 =>
      dsimp only
      split_ifs with he
      · exact ih
      · have hne : name ≠ n0 := by
          rintro rfl
          rw [hm] at hl
          cases hl
          simp [hleaf] at he
        simp [List.mem_cons, hne, ih]
    | none =>
      have hne : name ≠ n0 := by
        rintro rfl
        rw [hm] at hl
        cases hl
      simp [List.mem_cons, hne, ih]

/-- A field whose mask entry is a non-leaf subtree survives `pruneFields`
with its value sent through the per-kind dispatch. -/
theorem mem_pruneFields_of_nonleaf {mask m : NestedMask} {name : String} {v : PVal}
    {fields : PMsg} (hmem : (name, v) ∈ fields)
    (hm : maskLookup mask.children name = some m) (hne : m.children ≠ []) :
    (name, NestedMask.pruneValue m v) ∈ NestedMask.pruneFields mask fields := by
  induction fields with
  | nil => cases hmem
  | cons hd rest ih =>
    obtain ⟨n0, v0⟩ := hd
    rcases List.mem_cons.mp hmem with heq | hmem2
    · cases heq
      simp only [NestedMask.pruneFields, hm]
      rw [if_neg (by simp [hne])]
      exact List.mem_cons_self _ _
    · simp only [NestedMask.pruneFields]
      cases hl : maskLookup mask.children n0 with
      | some m0 =>
        dsimp only
        split_ifs with he
        · exact ih hmem2
        · exact List.mem_cons_of_mem _ (ih hmem2)
      | none => exact List.mem_cons_of_mem _ (ih hmem2)

theorem filterValue_pmap (m : NestedMask) (entries : List (String × PVal)) :
    NestedMask.filterValue m (PVal.pmap entries) = PVal.pmap (NestedMask.filterEntries m entries) := by
  simp [NestedMask.filterValue]

theorem pruneValue_pmap (m : NestedMask) (entries : List (String × PVal)) :
    NestedMask.pruneValue m (PVal.pmap entries) = PVal.pmap (NestedMask.pruneEntries m entries) := by
  simp [NestedMask.pruneValue]

/-- A scalar map entry whose stringified key has a mask entry survives
`filterEntries` unchanged (the recursion guard requires a message value). -/
theorem mem_filterEntries_of_scalar {m mi : NestedMask} {k : String} {n : Nat}
    {entries : List (String × PVal)} (hmem : (k, PVal.scalar n) ∈ entries)
    (hmi : maskLookup m.children k = some mi) :
    (k, PVal.scalar n) ∈ NestedMask.filterEntries m entries := by
  induction entries with
  | nil => cases hmem
  | cons hd rest ih =>
    obtain ⟨k0, v0⟩ := hd
    rcases List.mem_cons.mp hmem with heq | hmem2
    · cases heq
      simp only [NestedMask.filterEntries, hmi]
      exact List.mem_cons_self _ _
    · simp only [NestedMask.filterEntries]
      cases hl : maskLookup m.children k0 with
      | some mi0 =>
        dsimp only
        exact List.mem_cons_of_mem _ (ih hmem2)
      | none => exact ih hmem2

/-- In a map whose values are all scalars, every entry whose stringified
key has a mask entry is removed by `pruneEntries` (the non-message branch
always clears). -/
theorem not_mem_pruneEntries_of_scalars {m mi : NestedMask} {k : String}
    {entries : List (String × PVal)} (hscal : ∀ p ∈ entries, PVal.isScalarV p.2 = true)
    (hmi : maskLookup m.children k = some mi) :
    ∀ v, (k, v) ∉ NestedMask.pruneEntries m entries := by
  induction entries with
  | nil => simp [NestedMask.pruneEntries]
  | cons hd rest ih =>
    obtain ⟨k0, v0⟩ := hd
    intro v
    have hv0 := hscal (k0, v0) (List.mem_cons_self _ _)
    have ih2 := ih (fun p hp => hscal p (List.mem_cons_of_mem _ hp))
    cases v0 with
    | scalar n0 =>
      simp only [NestedMask.pruneEntries]
      cases hl : maskLookup m.children k0 with
      | some mi0 =>
        dsimp only
        exact ih2 v
      | none =>
        have hne : k ≠ k0 := by
          rintro rfl
          rw [hmi] at hl
          cases hl
        simp [List.mem_cons, hne]
        exact ih2 v
    | msg f => simp [PVal.isScalarV] at hv0
    | list l => simp [PVal.isScalarV] at hv0
    | pmap e => simp [PVal.isScalarV] at hv0

/-- C5: for every non-empty exact mask, `NestedMask.Filter` clears each
present field whose name is absent from the mask at the current level
(fmutils.go line 102), and keeps unchanged, without recursion, each field
whose mask node is present and a leaf (lines 76-78), whatever its kind. -/
theorem c5_exact_filter_absent_clears_leaf_keeps (mask : NestedMask) (fields : PMsg)
    (h : mask.children ≠ []) :
    (∀ name v, maskLookup mask.children name = none →
      (name, v) ∉ NestedMask.Filter mask fields)
    ∧ (∀ name v m, (name, v) ∈ fields → maskLookup mask.children name = some m →
        m.children = [] → (name, v) ∈ NestedMask.Filter mask fields) := by
  rw [filter_eq_filterFields h]
  exact ⟨fun _ v hn => not_mem_filterFields fields v hn,
    fun _ _ _ hmem hm hleaf => mem_filterFields_of_leaf hmem hm hleaf⟩

/-- Witness for C5: mask `{"user"}`, message `{user, photo}`: the leaf-kept
field `user` is in the filtered message. -/
theorem c5_exact_filter_absent_clears_leaf_keeps_witness :
    ("user", PVal.msg [("id", PVal.scalar 1)]) ∈
      NestedMask.Filter (NestedMask.node [("user", NestedMask.node [])])
        [("user", PVal.msg [("id", PVal.scalar 1)]), ("photo", PVal.scalar 2)] :=
  (c5_exact_filter_absent_clears_leaf_keeps (NestedMask.node [("user", NestedMask.node [])])
    [("user", PVal.msg [("id", PVal.scalar 1)]), ("photo", PVal.scalar 2)]
    (by simp)).2 "user" (PVal.msg [("id", PVal.scalar 1)]) (NestedMask.node [])
    (by simp) (by simp [maskLookup]) rfl

/-- C6: for every non-empty exact mask, `NestedMask.Prune` leaves untouched
each present field whose name is absent from the mask at the current level,
and clears entirely each field whose mask node is a leaf (fmutils.go lines
120-126); in particular pruning `{user: {id, name}, photo: {id}}` with mask
`{"user"}` yields `{photo: {id}}`. -/
theorem c6_exact_prune_absent_keeps_leaf_clears (mask : NestedMask) (fields : PMsg)
    (h : mask.children ≠ []) :
    (∀ name v, (name, v) ∈ fields → maskLookup mask.children name = none →
      (name, v) ∈ NestedMask.Prune mask fields)
    ∧ (∀ name v m, maskLookup mask.children name = some m → m.children = [] →
        (name, v) ∉ NestedMask.Prune mask fields)
    ∧ NestedMask.Prune (NestedMaskFromPaths ["user"])
        [("user", PVal.msg [("id", PVal.scalar 1), ("name", PVal.scalar 10)]),
         ("photo", PVal.msg [("id", PVal.scalar 2)])]
      = [("photo", PVal.msg [("id", PVal.scalar 2)])] := by
  rw [prune_eq_pruneFields h]
  refine ⟨fun _ _ hmem hn => mem_pruneFields_of_absent hmem hn,
    fun _ v _ hm hleaf => not_mem_pruneFields_of_leaf fields v hm hleaf, ?_⟩
  simp [NestedMask.Prune, NestedMask.pruneFields, NestedMaskFromPaths, insertSegs,
    pathSegments, segsAux, maskLookup]

/-- Witness for C6: the concrete leaf keep/clear duality instance. -/
theorem c6_exact_prune_absent_keeps_leaf_clears_witness :
    NestedMask.Prune (NestedMaskFromPaths ["user"])
        [("user", PVal.msg [("id", PVal.scalar 1), ("name", PVal.scalar 10)]),
         ("photo", PVal.msg [("id", PVal.scalar 2)])]
      = [("photo", PVal.msg [("id", PVal.scalar 2)])] :=
  (c6_exact_prune_absent_keeps_leaf_clears (NestedMask.node [("x", NestedMask.node [])])
    [] (by simp)).2.2

/-- C10: for a message with a map field whose values are not messages
(all scalars), when the exact mask has a present non-leaf subtree for the
field and a present non-leaf subtree for an entry key, `NestedMask.Prune`
clears that entry entirely (the non-message branch of fmutils.go lines
131-136 falls to `xmap.Clear`), while `NestedMask.Filter` keeps the entry
unchanged (lines 83-85 recurse only into message values). -/
theorem c10_exact_map_scalar_entry_prune_clears_filter_keeps (mask : NestedMask)
    (fields : PMsg) (fname k : String) (n : Nat) (entries : List (String × PVal))
    (m mi : NestedMask) (hmask : mask.children ≠ [])
    (hf : (fname, PVal.pmap entries) ∈ fields)
    (hm : maskLookup mask.children fname = some m) (hmne : m.children ≠ [])
    (he : (k, PVal.scalar n) ∈ entries)
    (hmi : maskLookup m.children k = some mi) (_hmine : mi.children ≠ [])
    (hscal : ∀ p ∈ entries, PVal.isScalarV p.2 = true) :
    ((fname, PVal.pmap (NestedMask.filterEntries m entries)) ∈ NestedMask.Filter mask fields
      ∧ (k, PVal.scalar n) ∈ NestedMask.filterEntries m entries)
    ∧ ((fname, PVal.pmap (NestedMask.pruneEntries m entries)) ∈ NestedMask.Prune mask fields
      ∧ ∀ v, (k, v) ∉ NestedMask.pruneEntries m entries) := by
  refine ⟨⟨?_, mem_filterEntries_of_scalar he hmi⟩,
    ?_, not_mem_pruneEntries_of_scalars hscal hmi⟩
  · rw [filter_eq_filterFields hmask]
    have hmm := mem_filterFields_of_nonleaf hf hm hmne
    rwa [filterValue_pmap] at hmm
  · rw [prune_eq_pruneFields hmask]
    have hmm := mem_pruneFields_of_nonleaf hf hm hmne
    rwa [pruneValue_pmap] at hmm

/-- Witness for C10 at a concrete map `attrs = {a1: 5}` (string-valued)
with mask subtree `{a1: {x}}`: the filtered entries keep `a1`. -/
theorem c10_exact_map_scalar_entry_prune_clears_filter_keeps_witness :
    ("a1", PVal.scalar 5) ∈ NestedMask.filterEntries
      (NestedMask.node [("a1", NestedMask.node [("x", NestedMask.node [])])])
      [("a1", PVal.scalar 5)] :=
  (c10_exact_map_scalar_entry_prune_clears_filter_keeps
    (NestedMask.node [("attrs", NestedMask.node [("a1", NestedMask.node [("x", NestedMask.node [])])])])
    [("attrs", PVal.pmap [("a1", PVal.scalar 5)])] "attrs" "a1" 5
    [("a1", PVal.scalar 5)]
    (NestedMask.node [("a1", NestedMask.node [("x", NestedMask.node [])])])
    (NestedMask.node [("x", NestedMask.node [])])
    (by simp) (by simp) (by simp [maskLookup]) (by simp)
    (by simp) (by simp [maskLookup]) (by simp) (by decide)).1.2

/-! ### Wildcard traversal engine: structural lemmas -/

theorem wildcardKey_false (name : String) : wildcardKey false name = name := rfl

theorem wfilter_eq_filterRange {mask : WildcardNestedMask} (h : mask.children ≠ [])
    (msg : PMsg) :
    WildcardNestedMask.Filter mask msg = WildcardNestedMask.filterRange mask msg := by
  rw [WildcardNestedMask.Filter, if_neg]
  simp [h]

theorem wprune_eq_pruneRange {mask : WildcardNestedMask} (h : mask.children ≠ [])
    (msg : PMsg) :
    WildcardNestedMask.Prune mask msg = WildcardNestedMask.pruneRange mask msg := by
  rw [WildcardNestedMask.Prune, if_neg]
  simp [h]

/-- The function `filterMapKey` returns `true` on every path (fmutils.go line 280). -/
theorem filterMapKey_fst (mask : WildcardNestedMask) (k : String) (mv : PVal)
    (wildcard : Bool) :
    (WildcardNestedMask.filterMapKey mask k mv wildcard).1 = true := by
  unfold WildcardNestedMask.filterMapKey
  cases maskLookup mask.children (wildcardKey wildcard k) with
  | some m =>
    cases mv <;> dsimp only <;> split_ifs <;> rfl
  | none => rfl

/-- The function `filterField` returns `true` on every path (fmutils.go line 257). -/
theorem filterField_fst (mask : WildcardNestedMask) (name : String) (v : PVal)
    (wildcard pruning : Bool) :
    (WildcardNestedMask.filterField mask name v wildcard pruning).1 = true := by
  unfold WildcardNestedMask.filterField
  cases maskLookup mask.children (wildcardKey wildcard name) with
  | some m =>
    dsimp only
    split_ifs
    · rfl
    · cases v <;> rfl
  | none => rfl

/-- Because `filterField` never returns `false`, the `Range` callback of the
wildcard `Filter` keeps every field, transformed by the exact-key
`filterField` only; the wildcard fallback and the clearing branch are dead
code. -/
theorem filterRange_eq_map (mask : WildcardNestedMask) (fields : PMsg) :
    WildcardNestedMask.filterRange mask fields
      = fields.map fun p =>
          (p.1, (WildcardNestedMask.filterField mask p.1 p.2 false false).2) := by
  induction fields with
  | nil => simp [WildcardNestedMask.filterRange]
  | cons hd rest ih =>
    obtain ⟨n0, v0⟩ := hd
    simp only [WildcardNestedMask.filterRange, filterField_fst, if_true, List.map_cons, ih]

/-- Because `filterField` never returns `false`, the `Range` callback of the
wildcard `Prune` clears every field: with a non-empty mask the pruned
message is empty. -/
theorem pruneRange_eq_nil (mask : WildcardNestedMask) (fields : PMsg) :
    WildcardNestedMask.pruneRange mask fields = [] := by
  induction fields with
  | nil => simp [WildcardNestedMask.pruneRange]
  | cons hd rest ih =>
    obtain ⟨n0, v0⟩ := hd
    simp only [WildcardNestedMask.pruneRange, filterField_fst, if_true, ih]

/-- Because `filterMapKey` never returns `false`, the map `Range` callback
in filter mode keeps every entry, transformed by the exact-key
`filterMapKey` only. -/
theorem rangeMapEntries_false_eq_map (mask : WildcardNestedMask)
    (entries : List (String × PVal)) :
    WildcardNestedMask.rangeMapEntries mask false entries
      = entries.map fun p =>
          (p.1, (WildcardNestedMask.filterMapKey mask p.1 p.2 false).2) := by
  induction entries with
  | nil => simp [WildcardNestedMask.rangeMapEntries]
  | cons hd rest ih =>
    obtain ⟨k0, v0⟩ := hd
    simp only [WildcardNestedMask.rangeMapEntries, filterMapKey_fst, if_true,
      Bool.false_eq_true, if_false, List.map_cons, ih]

/-! ### Idempotence of Filter -/

theorem sizeOf_snd_lt_cons (n0 : String) (v0 : PVal) (rest : List (String × PVal)) :
    sizeOf v0 < sizeOf ((n0, v0) :: rest) := by
  simp only [List.cons.sizeOf_spec, Prod.mk.sizeOf_spec]
  omega

theorem sizeOf_tail_lt_cons (hd : String × PVal) (rest : List (String × PVal)) :
    sizeOf rest < sizeOf (hd :: rest) := by
  simp only [List.cons.sizeOf_spec]
  omega

theorem exact_filter_idem_aux (n : Nat) :
    (∀ (mask : NestedMask) (fields : PMsg), sizeOf fields ≤ n →
      NestedMask.filterFields mask (NestedMask.filterFields mask fields)
        = NestedMask.filterFields mask fields)
    ∧ (∀ (m : NestedMask) (v : PVal), sizeOf v ≤ n →
      NestedMask.filterValue m (NestedMask.filterValue m v) = NestedMask.filterValue m v)
    ∧ (∀ (m : NestedMask) (entries : List (String × PVal)), sizeOf entries ≤ n →
      NestedMask.filterEntries m (NestedMask.filterEntries m entries)
        = NestedMask.filterEntries m entries)
    ∧ (∀ (m : NestedMask) (elems : List PVal), sizeOf elems ≤ n →
      NestedMask.filterList m (NestedMask.filterList m elems)
        = NestedMask.filterList m elems) := by
  induction n using Nat.strong_induction_on with
  | _ n IH =>
  have FIdem : ∀ (m2 : NestedMask) (f : PMsg), sizeOf f < n →
      NestedMask.Filter m2 (NestedMask.Filter m2 f) = NestedMask.Filter m2 f := by
    intro m2 f hf
    by_cases hE : m2.children.isEmpty = true
    · simp [NestedMask.Filter, hE]
    · have hne : m2.children ≠ [] := fun hnil => by simp [hnil] at hE
      rw [filter_eq_filterFields hne, filter_eq_filterFields hne]
      exact (IH (sizeOf f) hf).1 m2 f le_rfl
  refine ⟨?_, ?_, ?_, ?_⟩
  · intro mask fields hsz
    cases fields with
    | nil => simp [NestedMask.filterFields]
    | cons hd rest =>
      obtain ⟨n0, v0⟩ := hd
      have hrest : sizeOf rest < n := lt_of_lt_of_le (sizeOf_tail_lt_cons _ _) hsz
      have hv0 : sizeOf v0 < n := lt_of_lt_of_le (sizeOf_snd_lt_cons _ _ _) hsz
      have htail := (IH _ hrest).1 mask rest le_rfl
      cases hl : maskLookup mask.children n0 with
      | some m0 =>
        by_cases hE : m0.children.isEmpty = true
        · simp only [NestedMask.filterFields, hl, hE, if_true, htail]
        · have hE2 : m0.children.isEmpty = false := by simpa using hE
          have hval := (IH _ hv0).2.1 m0 v0 le_rfl
          simp only [NestedMask.filterFields, hl, hE2, Bool.false_eq_true, if_false,
            htail, hval]
      | none => simp only [NestedMask.filterFields, hl, htail]
  · intro m v hsz
    cases v with
    | scalar nn => simp [NestedMask.filterValue]
    | msg f =>
      have hf : sizeOf f < n := by
        have : sizeOf f < sizeOf (PVal.msg f) := by
          simp only [PVal.msg.sizeOf_spec]
          omega
        omega
      simp only [NestedMask.filterValue, FIdem m f hf]
    | list elems =>
      have hlt : sizeOf elems < n := by
        have : sizeOf elems < sizeOf (PVal.list elems) := by
          simp only [PVal.list.sizeOf_spec]
          omega
        omega
      simp only [NestedMask.filterValue, (IH _ hlt).2.2.2 m elems le_rfl]
    | pmap entries =>
      have hlt : sizeOf entries < n := by
        have : sizeOf entries < sizeOf (PVal.pmap entries) := by
          simp only [PVal.pmap.sizeOf_spec]
          omega
        omega
      simp only [NestedMask.filterValue, (IH _ hlt).2.2.1 m entries le_rfl]
  · intro m entries hsz
    cases entries with
    | nil => simp [NestedMask.filterEntries]
    | cons hd rest =>
      obtain ⟨k0, mv0⟩ := hd
      have hrest : sizeOf rest < n := lt_of_lt_of_le (sizeOf_tail_lt_cons _ _) hsz
      have htail := (IH _ hrest).2.2.1 m rest le_rfl
      cases hl : maskLookup m.children k0 with
      | none => simp only [NestedMask.filterEntries, hl, htail]
      | some mi =>
        cases mv0 with
        | scalar nn => simp only [NestedMask.filterEntries, hl, htail]
        | list l => simp only [NestedMask.filterEntries, hl, htail]
        | pmap e => simp only [NestedMask.filterEntries, hl, htail]
        | msg f =>
          by_cases hE : mi.children.isEmpty = true
          · simp only [NestedMask.filterEntries, hl, hE, if_true, htail]
          · have hE2 : mi.children.isEmpty = false := by simpa using hE
            have hf : sizeOf f < n := by
              have h1 : sizeOf f < sizeOf (PVal.msg f) := by
                simp only [PVal.msg.sizeOf_spec]
                omega
              have h2 : sizeOf (PVal.msg f) < sizeOf ((k0, PVal.msg f) :: rest) :=
                sizeOf_snd_lt_cons _ _ _
              omega
            simp only [NestedMask.filterEntries, hl, hE2, Bool.false_eq_true, if_false,
              htail, FIdem mi f hf]
  · intro m elems hsz
    cases elems with
    | nil => simp [NestedMask.filterList]
    | cons e rest =>
      have hrest : sizeOf rest < n := by
        have : sizeOf rest < sizeOf (e :: rest) := by
          simp only [List.cons.sizeOf_spec]
          omega
        omega
      have htail := (IH _ hrest).2.2.2 m rest le_rfl
      cases e with
      | scalar nn => simp only [NestedMask.filterList, htail]
      | list l => simp only [NestedMask.filterList, htail]
      | pmap e2 => simp only [NestedMask.filterList, htail]
      | msg f =>
        have hf : sizeOf f < n := by
          have h1 : sizeOf (PVal.msg f) < sizeOf (PVal.msg f :: rest) := by
            simp only [List.cons.sizeOf_spec]
            omega
          have h2 : sizeOf f < sizeOf (PVal.msg f) := by
            simp only [PVal.msg.sizeOf_spec]
            omega
          omega
        simp only [NestedMask.filterList, htail, FIdem m f hf]

theorem filterField_snd_of_none {mask : WildcardNestedMask} {name : String} (v : PVal)
    (w p : Bool) (h : maskLookup mask.children (wildcardKey w name) = none) :
    (WildcardNestedMask.filterField mask name v w p).2 = v := by
  unfold WildcardNestedMask.filterField
  simp [h]

theorem filterField_snd_of_leaf {mask m : WildcardNestedMask} {name : String} (v : PVal)
    (w p : Bool) (h : maskLookup mask.children (wildcardKey w name) = some m)
    (hE : m.children.isEmpty = true) :
    (WildcardNestedMask.filterField mask name v w p).2 = v := by
  unfold WildcardNestedMask.filterField
  simp [h, hE]

theorem filterField_snd_nonleaf_scalar {mask m : WildcardNestedMask} {name : String}
    (nn : Nat) (w p : Bool) (h : maskLookup mask.children (wildcardKey w name) = some m)
    (hE : m.children.isEmpty = false) :
    (WildcardNestedMask.filterField mask name (PVal.scalar nn) w p).2 = PVal.scalar nn := by
  unfold WildcardNestedMask.filterField
  simp [h, hE]

theorem filterField_snd_nonleaf_msg {mask m : WildcardNestedMask} {name : String}
    (f : PMsg) (w p : Bool) (h : maskLookup mask.children (wildcardKey w name) = some m)
    (hE : m.children.isEmpty = false) :
    (WildcardNestedMask.filterField mask name (PVal.msg f) w p).2
      = PVal.msg (WildcardNestedMask.Filter m f) := by
  unfold WildcardNestedMask.filterField
  simp [h, hE]

theorem filterField_snd_nonleaf_list {mask m : WildcardNestedMask} {name : String}
    (elems : List PVal) (w p : Bool)
    (h : maskLookup mask.children (wildcardKey w name) = some m)
    (hE : m.children.isEmpty = false) :
    (WildcardNestedMask.filterField mask name (PVal.list elems) w p).2
      = PVal.list (WildcardNestedMask.filterListElems m elems) := by
  unfold WildcardNestedMask.filterField
  simp [h, hE]

theorem filterField_snd_nonleaf_pmap {mask m : WildcardNestedMask} {name : String}
    (entries : List (String × PVal)) (w p : Bool)
    (h : maskLookup mask.children (wildcardKey w name) = some m)
    (hE : m.children.isEmpty = false) :
    (WildcardNestedMask.filterField mask name (PVal.pmap entries) w p).2
      = PVal.pmap (WildcardNestedMask.rangeMapEntries mask p entries) := by
  unfold WildcardNestedMask.filterField
  simp [h, hE]

theorem filterMapKey_snd_of_none {mask : WildcardNestedMask} {k : String} (mv : PVal)
    (w : Bool) (h : maskLookup mask.children (wildcardKey w k) = none) :
    (WildcardNestedMask.filterMapKey mask k mv w).2 = mv := by
  unfold WildcardNestedMask.filterMapKey
  simp [h]

theorem filterMapKey_snd_not_msg {mask mm : WildcardNestedMask} {k : String} (mv : PVal)
    (w : Bool) (h : maskLookup mask.children (wildcardKey w k) = some mm)
    (hmv : ∀ f, mv ≠ PVal.msg f) :
    (WildcardNestedMask.filterMapKey mask k mv w).2 = mv := by
  unfold WildcardNestedMask.filterMapKey
  cases mv with
  | msg f => exact absurd rfl (hmv f)
  | scalar nn => simp [h]
  | list l => simp [h]
  | pmap e => simp [h]

theorem filterMapKey_snd_msg_leaf {mask mm : WildcardNestedMask} {k : String} (f : PMsg)
    (w : Bool) (h : maskLookup mask.children (wildcardKey w k) = some mm)
    (hE : mm.children.isEmpty = true) :
    (WildcardNestedMask.filterMapKey mask k (PVal.msg f) w).2 = PVal.msg f := by
  unfold WildcardNestedMask.filterMapKey
  simp [h, hE]

theorem filterMapKey_snd_msg_nonleaf {mask mm : WildcardNestedMask} {k : String} (f : PMsg)
    (w : Bool) (h : maskLookup mask.children (wildcardKey w k) = some mm)
    (hE : mm.children.isEmpty = false) :
    (WildcardNestedMask.filterMapKey mask k (PVal.msg f) w).2
      = PVal.msg (WildcardNestedMask.Filter mm f) := by
  unfold WildcardNestedMask.filterMapKey
  simp [h, hE]

theorem wildcard_filter_idem_aux (n : Nat) :
    (∀ (mask : WildcardNestedMask) (f : PMsg), sizeOf f ≤ n →
      WildcardNestedMask.Filter mask (WildcardNestedMask.Filter mask f)
        = WildcardNestedMask.Filter mask f)
    ∧ (∀ (mask : WildcardNestedMask) (name : String) (v : PVal), sizeOf v ≤ n →
      (WildcardNestedMask.filterField mask name
          ((WildcardNestedMask.filterField mask name v false false).2) false false).2
        = (WildcardNestedMask.filterField mask name v false false).2)
    ∧ (∀ (mask : WildcardNestedMask) (k : String) (mv : PVal), sizeOf mv ≤ n →
      (WildcardNestedMask.filterMapKey mask k
          ((WildcardNestedMask.filterMapKey mask k mv false).2) false).2
        = (WildcardNestedMask.filterMapKey mask k mv false).2) := by
  induction n using Nat.strong_induction_on with
  | _ n IH =>
  have hRme : ∀ (m2 : WildcardNestedMask) (es : List (String × PVal)), sizeOf es ≤ n →
      WildcardNestedMask.rangeMapEntries m2 false (WildcardNestedMask.rangeMapEntries m2 false es)
        = WildcardNestedMask.rangeMapEntries m2 false es := by
    intro m2 es hsz
    rw [rangeMapEntries_false_eq_map, rangeMapEntries_false_eq_map, List.map_map]
    apply List.map_congr_left
    intro p hp
    have hp2 : sizeOf p.2 < n := by
      have h1 : sizeOf p < sizeOf es := List.sizeOf_lt_of_mem hp
      obtain ⟨a, b⟩ := p
      simp only [Prod.mk.sizeOf_spec] at h1 ⊢
      omega
    exact congrArg (fun w => (p.1, w)) ((IH (sizeOf p.2) hp2).2.2 m2 p.1 p.2 le_rfl)
  have hList : ∀ (m2 : WildcardNestedMask) (es : List PVal), sizeOf es ≤ n →
      WildcardNestedMask.filterListElems m2 (WildcardNestedMask.filterListElems m2 es)
        = WildcardNestedMask.filterListElems m2 es := by
    intro m2 es
    induction es with
    | nil =>
      intro
      simp [WildcardNestedMask.filterListElems]
    | cons e rest ihe =>
      intro hsz
      have hrest : sizeOf rest ≤ n := by
        have : sizeOf rest < sizeOf (e :: rest) := by
          simp only [List.cons.sizeOf_spec]
          omega
        omega
      have htail := ihe hrest
      cases e with
      | scalar nn => simp only [WildcardNestedMask.filterListElems, htail]
      | list l => simp only [WildcardNestedMask.filterListElems, htail]
      | pmap e2 => simp only [WildcardNestedMask.filterListElems, htail]
      | msg f =>
        have hf : sizeOf f < n := by
          have h1 : sizeOf (PVal.msg f) < sizeOf (PVal.msg f :: rest) := by
            simp only [List.cons.sizeOf_spec]
            omega
          have h2 : sizeOf f < sizeOf (PVal.msg f) := by
            simp only [PVal.msg.sizeOf_spec]
            omega
          omega
        simp only [WildcardNestedMask.filterListElems, htail,
          (IH (sizeOf f) hf).1 m2 f le_rfl]
  refine ⟨?_, ?_, ?_⟩
  · intro mask f hsz
    by_cases hE : mask.children.isEmpty = true
    · simp [WildcardNestedMask.Filter, hE]
    · have hne : mask.children ≠ [] := fun hnil => by simp [hnil] at hE
      rw [wfilter_eq_filterRange hne, wfilter_eq_filterRange hne, filterRange_eq_map,
        filterRange_eq_map, List.map_map]
      apply List.map_congr_left
      intro p hp
      have hp2 : sizeOf p.2 < n := by
        have h1 : sizeOf p < sizeOf f := List.sizeOf_lt_of_mem hp
        obtain ⟨a, b⟩ := p
        simp only [Prod.mk.sizeOf_spec] at h1 ⊢
        omega
      exact congrArg (fun w => (p.1, w)) ((IH (sizeOf p.2) hp2).2.1 mask p.1 p.2 le_rfl)
  · intro mask name v hsz
    cases hl : maskLookup mask.children (wildcardKey false name) with
    | none =>
      rw [filterField_snd_of_none v false false hl, filterField_snd_of_none v false false hl]
    | some m =>
      by_cases hE : m.children.isEmpty = true
      · rw [filterField_snd_of_leaf v false false hl hE,
          filterField_snd_of_leaf v false false hl hE]
      · have hE2 : m.children.isEmpty = false := by simpa using hE
        cases v with
        | scalar nn =>
          rw [filterField_snd_nonleaf_scalar nn false false hl hE2,
            filterField_snd_nonleaf_scalar nn false false hl hE2]
        | msg f =>
          have hf : sizeOf f < n := by
            have : sizeOf f < sizeOf (PVal.msg f) := by
              simp only [PVal.msg.sizeOf_spec]
              omega
            omega
          rw [filterField_snd_nonleaf_msg f false false hl hE2,
            filterField_snd_nonleaf_msg _ false false hl hE2,
            (IH (sizeOf f) hf).1 m f le_rfl]
        | list elems =>
          have hlt : sizeOf elems ≤ n := by
            have : sizeOf elems < sizeOf (PVal.list elems) := by
              simp only [PVal.list.sizeOf_spec]
              omega
            omega
          rw [filterField_snd_nonleaf_list elems false false hl hE2,
            filterField_snd_nonleaf_list _ false false hl hE2,
            hList m elems hlt]
        | pmap entries =>
          have hlt : sizeOf entries ≤ n := by
            have : sizeOf entries < sizeOf (PVal.pmap entries) := by
              simp only [PVal.pmap.sizeOf_spec]
              omega
            omega
          rw [filterField_snd_nonleaf_pmap entries false false hl hE2,
            filterField_snd_nonleaf_pmap _ false false hl hE2,
            hRme mask entries hlt]
  · intro mask k mv hsz
    cases hl : maskLookup mask.children (wildcardKey false k) with
    | none =>
      rw [filterMapKey_snd_of_none mv false hl, filterMapKey_snd_of_none mv false hl]
    | some mm =>
      cases mv with
      | scalar nn =>
        rw [filterMapKey_snd_not_msg (PVal.scalar nn) false hl (by simp),
          filterMapKey_snd_not_msg (PVal.scalar nn) false hl (by simp)]
      | list l =>
        rw [filterMapKey_snd_not_msg (PVal.list l) false hl (by simp),
          filterMapKey_snd_not_msg (PVal.list l) false hl (by simp)]
      | pmap e =>
        rw [filterMapKey_snd_not_msg (PVal.pmap e) false hl (by simp),
          filterMapKey_snd_not_msg (PVal.pmap e) false hl (by simp)]
      | msg f =>
        by_cases hE : mm.children.isEmpty = true
        · rw [filterMapKey_snd_msg_leaf f false hl hE,
            filterMapKey_snd_msg_leaf f false hl hE]
        · have hE2 : mm.children.isEmpty = false := by simpa using hE
          have hf : sizeOf f < n := by
            have : sizeOf f < sizeOf (PVal.msg f) := by
              simp only [PVal.msg.sizeOf_spec]
              omega
            omega
          rw [filterMapKey_snd_msg_nonleaf f false hl hE2,
            filterMapKey_snd_msg_nonleaf _ false hl hE2,
            (IH (sizeOf f) hf).1 mm f le_rfl]

/-- C9: Filter is idempotent, in the exact and in the wildcard engine:
applying `Filter` with the same mask to an already-filtered message
changes nothing. -/
theorem c9_filter_idempotent (mask : NestedMask) (msg : PMsg) :
    NestedMask.Filter mask (NestedMask.Filter mask msg) = NestedMask.Filter mask msg
    ∧ WildcardNestedMask.Filter mask (WildcardNestedMask.Filter mask msg)
        = WildcardNestedMask.Filter mask msg := by
  constructor
  · by_cases hE : mask.children.isEmpty = true
    · simp [NestedMask.Filter, hE]
    · have hne : mask.children ≠ [] := fun hnil => by simp [hnil] at hE
      rw [filter_eq_filterFields hne, filter_eq_filterFields hne]
      exact (exact_filter_idem_aux (sizeOf msg)).1 mask msg le_rfl
  · exact (wildcard_filter_idem_aux (sizeOf msg)).1 mask msg le_rfl
